import Mathlib

/-
Verification of the task-repository core of the PythonBasicProjects repo:
the JSON-backed CLI to-do manager (cli-todo-app/todo_cli.py) and the two
Flask web variants (web-todo-app/app.py, web-todo-app/todo_web_service.py).

The embedding is shallow: each Python function over the task list becomes a
Lean function on `List Task`; in-place mutation of the list becomes returning
the new list. Machine-level concerns (terminal colours, Flask routing,
Firestore wiring) are out of scope of the claims and are not modelled.
-/

namespace Todo

/-- A task record, as built by `add_task` in todo_cli.py:
`{'description': ..., 'done': ..., 'priority': ...}`. All three keys are
present on every task the repository itself creates. -/
structure Task where
  description : String
  done : Bool
  priority : String
deriving DecidableEq, Repr

instance : Inhabited Task := ⟨⟨"", false, ""⟩⟩

/-- Characters removed by the Python `str.strip()` default whitespace set
(space, tab, newline, carriage return, vertical tab, form feed). -/
def isPySpace (c : Char) : Bool :=
  c = ' ' || c = '\t' || c = '\n' || c = '\r' || c = '\x0b' || c = '\x0c'

/-- `str.strip()` on the underlying character list: drop leading and
trailing whitespace. -/
def stripChars (l : List Char) : List Char :=
  ((l.dropWhile isPySpace).reverse.dropWhile isPySpace).reverse

/-- Python `str.strip()`. -/
def pyStrip (s : String) : String :=
  ⟨stripChars s.data⟩

/-- A description that is empty or whitespace-only (the strings whose
Python truthiness after `.strip()` is false). -/
def blankStr (s : String) : Bool :=
  s.data.all isPySpace

/-- Python `str.upper()`, character by character (all priority strings in
this program are ASCII, where `.upper()` is exactly the per-character
uppercase map). Defined on the character list so that proofs compute. -/
def pyUpper (s : String) : String :=
  ⟨s.data.map Char.toUpper⟩

/-- The CLI sort key. In todo_cli.py:
`priority_order = {'HIGH': 1, 'MEDIUM': 2, 'LOW': 3, 'NONE': 4}` and the key
is `priority_order.get(task.get('priority', 'NONE').upper(), 5)`, so unknown
priorities always go last. -/
def priorityRank (p : String) : Nat :=
  if pyUpper p = "HIGH" then 1
  else if pyUpper p = "MEDIUM" then 2
  else if pyUpper p = "LOW" then 3
  else if pyUpper p = "NONE" then 4
  else 5

/-- Sort key of a task in the CLI sort (`priority` is always present on
tasks the repository creates, so the `.get` default does not fire). -/
def taskRank (t : Task) : Nat :=
  priorityRank t.priority

/-- Stable insertion of `x` into a list already sorted by `key`:
`x` goes in front of the first element whose key is not smaller, so
elements with equal key that were later in the original list stay after
`x`. -/
def insertK (key : Task → Nat) (x : Task) : List Task → List Task
  | [] => [x]
  | y :: ys => if key y < key x then y :: insertK key x ys else x :: y :: ys

/-- Stable sort by a natural-number key: the extensional behaviour of the
Python `list.sort(key=...)` (Timsort is a stable comparison sort; any two
stable sorts by the same key agree on every input). -/
def isortK (key : Task → Nat) : List Task → List Task
  | [] => []
  | x :: xs => insertK key x (isortK key xs)

/-- Concatenation of the key-buckets of `l` in the order given by `ks`,
each bucket keeping the original order of `l`. For an ascending,
duplicate-free `ks` covering every key value of `l` this is exactly the
stable sort `isortK` (proved below as `isortK_eq_bucketsBy`). -/
def bucketsBy (key : Task → Nat) : List Nat → List Task → List Task
  | [], _ => []
  | k :: ks, l => l.filter (fun t => key t = k) ++ bucketsBy key ks l

/-- Position of a task in the priority order the spec claims for the
display: HIGH, then MEDIUM, then LOW, then NONE or unrecognized last. -/
def priorityClass (t : Task) : Nat :=
  if pyUpper t.priority = "HIGH" then 0
  else if pyUpper t.priority = "MEDIUM" then 1
  else if pyUpper t.priority = "LOW" then 2
  else 3

end Todo

namespace TodoCli

open Todo

/-- `sort_tasks_by_priority` in todo_cli.py:
`tasks.sort(key=lambda task: priority_order.get(..., 5))`, a stable
in-place sort; every caller passes a copy, so we model it as a pure
function. -/
def sort_tasks_by_priority (tasks : List Task) : List Task :=
  isortK taskRank tasks

/-- `view_tasks` in todo_cli.py: displays `sort_tasks_by_priority(tasks.copy())`;
the second component is the task list after the call (the copy means the
stored list is untouched). -/
def view_tasks (tasks : List Task) : List Task × List Task :=
  (sort_tasks_by_priority tasks, tasks)

inductive AddResult where
  | added
  | emptyDescription
deriving DecidableEq, Repr

/-- `add_task` in todo_cli.py. Returns the reported outcome, the task list
after the call, and whether `save_tasks` was invoked. A non-blank stripped
description appends `{'description': desc.strip(), 'done': False,
'priority': priority.upper()}` and persists; otherwise the error message is
printed and nothing changes. -/
def add_task (tasks : List Task) (new_task_desc : String) (priority : String) :
    AddResult × List Task × Bool :=
  if pyStrip new_task_desc ≠ "" then
    let new_task : Task :=
      { description := pyStrip new_task_desc, done := false, priority := pyUpper priority }
    (AddResult.added, tasks ++ [new_task], true)
  else
    (AddResult.emptyDescription, tasks, false)

/-- Python `list.index(x)`: position of the first element equal (by value)
to `x`. The callers below only use it on elements known to be present, so
the out-of-range ValueError branch never fires. -/
def list_index (x : Task) : List Task → Nat
  | [] => 0
  | y :: ys => if y = x then 0 else list_index x ys + 1

inductive MarkResult where
  | marked
  | alreadyDone
  | invalidIndex
deriving DecidableEq, Repr

/-- `mark_task_done` in todo_cli.py: resolves the 1-based index in the
sorted copy, relocates that task in the stored list by value equality
(`tasks.index`), reports "already done" if its `done` flag is set, and
otherwise sets the flag. Returns the reported outcome and the list after
the call. -/
def mark_task_done (tasks : List Task) (task_index : Int) : MarkResult × List Task :=
  let sorted_tasks := sort_tasks_by_priority tasks
  let index := task_index - 1
  if 0 ≤ index ∧ index < (sorted_tasks.length : Int) then
    let task_to_mark := sorted_tasks.getD index.toNat default
    let original_index := list_index task_to_mark tasks
    if (tasks.getD original_index default).done then
      (MarkResult.alreadyDone, tasks)
    else
      (MarkResult.marked, tasks.set original_index
        { tasks.getD original_index default with done := true })
  else
    (MarkResult.invalidIndex, tasks)

inductive DeleteResult where
  | deleted (desc : String)
  | invalidIndex
deriving DecidableEq, Repr

/-- `delete_task` in todo_cli.py: same index resolution as
`mark_task_done`, then `tasks.pop(original_index)`. -/
def delete_task (tasks : List Task) (task_index : Int) : DeleteResult × List Task :=
  let sorted_tasks := sort_tasks_by_priority tasks
  let index := task_index - 1
  if 0 ≤ index ∧ index < (sorted_tasks.length : Int) then
    let task_to_delete := sorted_tasks.getD index.toNat default
    let original_index := list_index task_to_delete tasks
    (DeleteResult.deleted (tasks.getD original_index default).description,
      tasks.eraseIdx original_index)
  else
    (DeleteResult.invalidIndex, tasks)

/-- `save_tasks` in todo_cli.py. The body is
`for task in tasks: json.dump(tasks, f, indent=4)`: each loop iteration
writes the WHOLE list as one complete JSON array, so the file receives one
copy of the array per task. We model the file content as the sequence of
top-level JSON values written to it. -/
def save_tasks (tasks : List Task) : List (List Task) :=
  tasks.map (fun _ => tasks)

/-- `load_tasks` in todo_cli.py: `json.load` succeeds exactly when the file
holds one complete top-level JSON value; on a decode error (empty file, or
trailing extra data after the first value) the code prints a corruption
warning and returns `[]`, and an absent file also yields `[]`. -/
def load_tasks (file : List (List Task)) : List Task :=
  match file with
  | [chunk] => chunk
  | _ => []

/-- The task the code resolves a valid 1-based display index to: the entry
of the sorted copy at position `index = task_index - 1` (`task_to_mark` /
`task_to_delete` in todo_cli.py). -/
def display_target (tasks : List Task) (i : Int) : Task :=
  (sort_tasks_by_priority tasks).getD (i - 1).toNat default

/-- The storage position the code then mutates: the first index of a task
value-equal to the display target (`original_index = tasks.index(...)` in
todo_cli.py). -/
def storage_index (tasks : List Task) (i : Int) : Nat :=
  list_index (display_target tasks i) tasks

/-- Collections reachable from the empty store through the CLI repository
operations (the store starts empty when no file exists yet). -/
inductive Reachable : List Task → Prop where
  | init : Reachable []
  | add (ts : List Task) (d p : String) : Reachable ts → Reachable (add_task ts d p).2.1
  | mark (ts : List Task) (i : Int) : Reachable ts → Reachable (mark_task_done ts i).2
  | del (ts : List Task) (i : Int) : Reachable ts → Reachable (delete_task ts i).2

end TodoCli

namespace WebTodo

open Todo

/-- The sort key used by the `index` route of web-todo-app/app.py and the
`get_tasks` route of todo_web_service.py:
`priority_order = {'HIGH': 1, 'MEDIUM': 2, 'LOW': 3}` with default 4, so
NONE and unrecognized priorities go last within each done group. -/
def webPriorityRank (p : String) : Nat :=
  if pyUpper p = "HIGH" then 1
  else if pyUpper p = "MEDIUM" then 2
  else if pyUpper p = "LOW" then 3
  else 4

/-- The web routes sort by the pair `(t.get('done', False), rank)` compared
lexicographically with `False < True`. Since the rank lies in `[1, 4]`, the
encoding `5 * done + rank` is strictly order-isomorphic to that pair, so a
stable sort by this single key is the same reordering. -/
def webSortKey (t : Task) : Nat :=
  (if t.done then 5 else 0) + webPriorityRank t.priority

/-- The display ordering of the web `index` / `get_tasks` routes:
`tasks.sort(key=lambda t: (t.get('done', False), priority_order.get(..., 4)))`,
a stable sort, pending tasks first. -/
def web_sort_tasks (tasks : List Task) : List Task :=
  isortK webSortKey tasks

/-- `add_task` in web-todo-app/app.py: with Firestore connected it reads the
form fields, uppercases the priority, and stores the task verbatim whenever
both strings are truthy (non-empty); the description is neither stripped
nor checked for whitespace. The Firestore collection is modelled as the
list of stored tasks in insertion (stream) order. -/
def web_add_task (firebase_ready : Bool) (tasks : List Task)
    (description : String) (priority : String) : List Task :=
  if firebase_ready then
    let priority := pyUpper priority
    if description ≠ "" ∧ priority ≠ "" then
      tasks ++ [{ description := description, done := false, priority := priority }]
    else tasks
  else tasks

/-- A task document of todo_web_service.py, which additionally stores the
owning user id. -/
structure UserTask where
  user_id : String
  description : String
  done : Bool
  priority : String
deriving DecidableEq, Repr

/-- `add_task` in web-todo-app/todo_web_service.py: same truthiness check
as the anonymous variant, storing the user id alongside; again no stripping
and no whitespace validation of the description. -/
def service_add_task (firebase_ready : Bool) (user_id : String)
    (docs : List UserTask) (description : String) (priority : String) : List UserTask :=
  if firebase_ready then
    let priority := pyUpper priority
    if description ≠ "" ∧ priority ≠ "" then
      docs ++ [{ user_id := user_id, description := description, done := false,
                 priority := priority }]
    else docs
  else docs

end WebTodo

namespace Todo

/- Small generic list facts used throughout; proved from first principles
so the development does not depend on library lemma names that move
between versions. -/

theorem getD_mem {α : Type} (d : α) :
    ∀ (l : List α) (n : Nat), n < l.length → l.getD n d ∈ l := by
  intro l
  induction l with
  | nil => intro n h; simp at h
  | cons y ys ih =>
    intro n h
    cases n with
    | zero => simp
    | succ m =>
      simp only [List.getD_cons_succ]
      exact List.mem_cons_of_mem y (ih m (by simpa using h))

theorem getD_set_self {α : Type} (d : α) :
    ∀ (l : List α) (n : Nat) (x : α), n < l.length → (l.set n x).getD n d = x := by
  intro l
  induction l with
  | nil => intro n x h; simp at h
  | cons y ys ih =>
    intro n x h
    cases n with
    | zero => simp
    | succ m => simpa using ih m x (by simpa using h)

theorem mem_of_mem_set {α : Type} :
    ∀ (l : List α) (n : Nat) (x t : α), t ∈ l.set n x → t = x ∨ t ∈ l := by
  intro l
  induction l with
  | nil => intro n x t h; simp [List.set] at h
  | cons y ys ih =>
    intro n x t h
    cases n with
    | zero =>
      rcases List.mem_cons.mp h with h | h
      · exact Or.inl h
      · exact Or.inr (List.mem_cons_of_mem y h)
    | succ m =>
      rcases List.mem_cons.mp h with h | h
      · exact Or.inr (h ▸ List.mem_cons_self y ys)
      · rcases ih m x t h with h | h
        · exact Or.inl h
        · exact Or.inr (List.mem_cons_of_mem y h)

theorem set_append_left {α : Type} (x : α) :
    ∀ (a b : List α) (m : Nat), m < a.length → (a ++ b).set m x = a.set m x ++ b := by
  intro a
  induction a with
  | nil => intro b m h; simp at h
  | cons y ys ih =>
    intro b m h
    cases m with
    | zero => simp
    | succ k => simpa using ih b k (by simpa using h)

theorem set_append_right {α : Type} (x : α) :
    ∀ (a b : List α) (m : Nat), (a ++ b).set (a.length + m) x = a ++ b.set m x := by
  intro a
  induction a with
  | nil => intro b m; simp
  | cons y ys ih =>
    intro b m
    have h : ys.length + 1 + m = (ys.length + m) + 1 := by omega
    simp only [List.cons_append, List.length_cons, h]
    show y :: ((ys ++ b).set (ys.length + m) x) = y :: (ys ++ b.set m x)
    rw [ih]

theorem getD_append_left {α : Type} (d : α) :
    ∀ (a b : List α) (m : Nat), m < a.length → (a ++ b).getD m d = a.getD m d := by
  intro a
  induction a with
  | nil => intro b m h; simp at h
  | cons y ys ih =>
    intro b m h
    cases m with
    | zero => simp
    | succ k => simpa using ih b k (by simpa using h)

theorem getD_append_right {α : Type} (d : α) :
    ∀ (a b : List α) (m : Nat), (a ++ b).getD (a.length + m) d = b.getD m d := by
  intro a
  induction a with
  | nil => intro b m; simp
  | cons y ys ih =>
    intro b m
    have : ys.length + 1 + m = (ys.length + m) + 1 := by omega
    simp only [List.cons_append, List.length_cons, this, List.getD_cons_succ]
    exact ih b m

theorem take_getD_drop {α : Type} (d : α) :
    ∀ (l : List α) (k : Nat), k < l.length →
      l.take k ++ l.getD k d :: l.drop (k + 1) = l := by
  intro l
  induction l with
  | nil => intro k h; simp at h
  | cons y ys ih =>
    intro k h
    cases k with
    | zero => simp
    | succ m => simpa using ih m (by simpa using h)

theorem eraseIdx_eq_take_drop {α : Type} :
    ∀ (l : List α) (k : Nat), l.eraseIdx k = l.take k ++ l.drop (k + 1) := by
  intro l
  induction l with
  | nil => intro k; cases k <;> rfl
  | cons y ys ih =>
    intro k
    cases k with
    | zero => simp [List.eraseIdx]
    | succ m => simpa [List.eraseIdx] using ih m

theorem bucketsBy_nil (key : Task → Nat) (ks : List Nat) : bucketsBy key ks [] = [] := by
  induction ks with
  | nil => rfl
  | cons k ks ih => simp [bucketsBy, ih]

theorem bucketsBy_cons_of_not_mem (key : Task → Nat) (x : Task) (l : List Task)
    (ks : List Nat) (hx : key x ∉ ks) :
    bucketsBy key ks (x :: l) = bucketsBy key ks l := by
  induction ks with
  | nil => rfl
  | cons k ks ih =>
    have hk : ¬ key x = k := fun e => hx (e ▸ List.mem_cons_self k ks)
    have hx2 : key x ∉ ks := fun e => hx (List.mem_cons_of_mem k e)
    simp only [bucketsBy, ih hx2, List.filter_cons]
    simp [hk]

theorem bucketsBy_cons_perm (key : Task → Nat) (x : Task) (l : List Task)
    (ks : List Nat) (hnd : ks.Nodup) (hx : key x ∈ ks) :
    List.Perm (bucketsBy key ks (x :: l)) (x :: bucketsBy key ks l) := by
  induction ks with
  | nil => cases hx
  | cons k ks ih =>
    rcases List.nodup_cons.mp hnd with ⟨hkn, hnd2⟩
    rcases List.mem_cons.mp hx with h | h
    · have hnotin : key x ∉ ks := h ▸ hkn
      simp only [bucketsBy, bucketsBy_cons_of_not_mem key x l ks hnotin, List.filter_cons]
      simp [h]
    · have hk : ¬ key x = k := fun e => hkn (e ▸ h)
      simp only [bucketsBy, List.filter_cons]
      rw [if_neg (by simp [hk])]
      refine List.Perm.trans (List.Perm.append_left _ (ih hnd2 h)) ?_
      exact List.perm_middle

theorem bucketsBy_perm (key : Task → Nat) (ks : List Nat) (l : List Task)
    (hnd : ks.Nodup) (hcov : ∀ t ∈ l, key t ∈ ks) :
    List.Perm (bucketsBy key ks l) l := by
  induction l with
  | nil => simp [bucketsBy_nil]
  | cons x xs ih =>
    refine List.Perm.trans (bucketsBy_cons_perm key x xs ks hnd (hcov x (List.mem_cons_self x xs))) ?_
    exact List.Perm.cons x (ih (fun t ht => hcov t (List.mem_cons_of_mem x ht)))

theorem insertK_of_not_lt (key : Task → Nat) (x : Task) (l : List Task)
    (h : ∀ y ∈ l, ¬ key y < key x) : insertK key x l = x :: l := by
  cases l with
  | nil => rfl
  | cons y ys =>
    simp only [insertK, if_neg (h y (List.mem_cons_self y ys))]

theorem insertK_append_of_lt (key : Task → Nat) (x : Task) (l₁ l₂ : List Task)
    (h : ∀ y ∈ l₁, key y < key x) :
    insertK key x (l₁ ++ l₂) = l₁ ++ insertK key x l₂ := by
  induction l₁ with
  | nil => rfl
  | cons y ys ih =>
    simp only [List.cons_append, insertK, if_pos (h y (List.mem_cons_self y ys))]
    show y :: insertK key x (ys ++ l₂) = y :: (ys ++ insertK key x l₂)
    rw [ih (fun z hz => h z (List.mem_cons_of_mem y hz))]

theorem mem_bucketsBy (key : Task → Nat) (ks : List Nat) (l : List Task) (t : Task)
    (ht : t ∈ bucketsBy key ks l) : t ∈ l ∧ key t ∈ ks := by
  induction ks with
  | nil => cases ht
  | cons k ks ih =>
    rcases List.mem_append.mp ht with h | h
    · rcases List.mem_filter.mp h with ⟨h1, h2⟩
      exact ⟨h1, by simp at h2; simp [h2]⟩
    · rcases ih h with ⟨h1, h2⟩
      exact ⟨h1, List.mem_cons_of_mem k h2⟩

theorem insertK_bucketsBy (key : Task → Nat) (x : Task) (l : List Task)
    (ks : List Nat) (hks : ks.Pairwise (· < ·)) (hx : key x ∈ ks) :
    insertK key x (bucketsBy key ks l) = bucketsBy key ks (x :: l) := by
  induction ks with
  | nil => cases hx
  | cons k ks ih =>
    rcases List.pairwise_cons.mp hks with ⟨hlt, hks2⟩
    rcases List.mem_cons.mp hx with h | h
    · have hnotin : key x ∉ ks := fun e => absurd (h ▸ hlt _ e) (lt_irrefl _)
      rw [bucketsBy, bucketsBy, bucketsBy_cons_of_not_mem key x l ks hnotin]
      rw [insertK_of_not_lt]
      · rw [List.filter_cons]
        simp [h]
      · intro y hy
        rcases List.mem_append.mp hy with hy | hy
        · have := (List.mem_filter.mp hy).2
          simp only [decide_eq_true_eq] at this
          omega
        · rcases mem_bucketsBy key ks l y hy with ⟨_, hk⟩
          have := hlt _ hk
          omega
    · have hk : ¬ key x = k := fun e => absurd (e ▸ hlt _ h) (lt_irrefl _)
      rw [bucketsBy, bucketsBy, insertK_append_of_lt, ih hks2 h, List.filter_cons]
      · simp [hk]
      · intro y hy
        have := (List.mem_filter.mp hy).2
        simp only [decide_eq_true_eq] at this
        have := hlt _ h
        omega

theorem isortK_eq_bucketsBy (key : Task → Nat) (ks : List Nat) (l : List Task)
    (hks : ks.Pairwise (· < ·)) (hcov : ∀ t ∈ l, key t ∈ ks) :
    isortK key l = bucketsBy key ks l := by
  induction l with
  | nil => simp [isortK, bucketsBy_nil]
  | cons x xs ih =>
    rw [isortK, ih (fun t ht => hcov t (List.mem_cons_of_mem x ht))]
    exact insertK_bucketsBy key x xs ks hks (hcov x (List.mem_cons_self x xs))

theorem bucketsBy_pairwise (key : Task → Nat) (ks : List Nat) (l : List Task)
    (hks : ks.Pairwise (· ≤ ·)) :
    (bucketsBy key ks l).Pairwise (fun a b => key a ≤ key b) := by
  induction ks with
  | nil => exact List.Pairwise.nil
  | cons k ks ih =>
    rcases List.pairwise_cons.mp hks with ⟨hle, hks2⟩
    rw [bucketsBy]
    rw [List.pairwise_append]
    refine ⟨?_, ih hks2, ?_⟩
    · refine List.pairwise_of_forall_mem_list ?_
      intro a ha b hb
      have ha2 := (List.mem_filter.mp ha).2
      have hb2 := (List.mem_filter.mp hb).2
      simp only [decide_eq_true_eq] at ha2 hb2
      omega
    · intro a ha b hb
      have ha2 := (List.mem_filter.mp ha).2
      simp only [decide_eq_true_eq] at ha2
      rcases mem_bucketsBy key ks l b hb with ⟨_, hkb⟩
      have := hle _ hkb
      omega

theorem filter_eq_nil_of (p : Task → Bool) (l : List Task)
    (h : ∀ t ∈ l, p t = false) : l.filter p = [] := by
  induction l with
  | nil => rfl
  | cons y ys ih =>
    rw [List.filter_cons, if_neg (by simp [h y (List.mem_cons_self y ys)])]
    exact ih (fun t ht => h t (List.mem_cons_of_mem y ht))

theorem filter_filter_of_imp (p q : Task → Bool)
    (himp : ∀ t, p t = true → q t = true) :
    ∀ l : List Task, (l.filter q).filter p = l.filter p := by
  intro l
  induction l with
  | nil => rfl
  | cons y ys ih =>
    by_cases hq : q y = true
    · rw [List.filter_cons, if_pos (by simp [hq]), List.filter_cons, List.filter_cons]
      by_cases hp : p y = true
      · rw [if_pos (by simp [hp]), if_pos (by simp [hp]), ih]
      · rw [if_neg (by simp [Bool.not_eq_true] at hp; simp [hp]),
            if_neg (by simp [Bool.not_eq_true] at hp; simp [hp]), ih]
    · have hp : p y = false := Bool.eq_false_iff.mpr (fun hpt => hq (himp y hpt))
      have _ := hp
      rw [List.filter_cons, if_neg (by simp [Bool.not_eq_true] at hq; simp [hq]),
          List.filter_cons, if_neg (by simp [hp]), ih]

theorem filter_bucketsBy_of_not_mem (key : Task → Nat) (p : Task → Bool) (c : Nat)
    (ks : List Nat) (l : List Task)
    (hpc : ∀ t, p t = true → key t = c) (hc : c ∉ ks) :
    (bucketsBy key ks l).filter p = [] := by
  induction ks with
  | nil => rfl
  | cons k ks ih =>
    have hk : c ≠ k := fun e => hc (e ▸ List.mem_cons_self k ks)
    have hc2 : c ∉ ks := fun e => hc (List.mem_cons_of_mem k e)
    rw [bucketsBy, List.filter_append, ih hc2, List.append_nil]
    refine filter_eq_nil_of p _ ?_
    intro t ht
    have h2 := (List.mem_filter.mp ht).2
    simp only [decide_eq_true_eq] at h2
    exact Bool.eq_false_iff.mpr (fun hpt => hk ((hpc t hpt).symm.trans h2))

theorem filter_bucketsBy (key : Task → Nat) (p : Task → Bool) (c : Nat)
    (ks : List Nat) (l : List Task)
    (hpc : ∀ t, p t = true → key t = c) (hnd : ks.Nodup) (hc : c ∈ ks) :
    (bucketsBy key ks l).filter p = l.filter p := by
  induction ks with
  | nil => cases hc
  | cons k ks ih =>
    rcases List.nodup_cons.mp hnd with ⟨hkn, hnd2⟩
    rw [bucketsBy, List.filter_append]
    rcases List.mem_cons.mp hc with h | h
    · have hcks : c ∉ ks := h ▸ hkn
      rw [filter_bucketsBy_of_not_mem key p c ks l hpc hcks, List.append_nil]
      exact filter_filter_of_imp p _ (fun t hpt => by simp [hpc t hpt, h]) l
    · have hk : c ≠ k := fun e => hkn (e ▸ h)
      rw [ih hnd2 h, filter_eq_nil_of, List.nil_append]
      intro t ht
      have h2 := (List.mem_filter.mp ht).2
      simp only [decide_eq_true_eq] at h2
      exact Bool.eq_false_iff.mpr (fun hpt => hk ((hpc t hpt).symm.trans h2))

theorem filter_set_pos (p : Task → Bool) :
    ∀ (l : List Task) (n : Nat) (x : Task), n < l.length →
      p (l.getD n default) = true → p x = true →
      ∃ m, m < (l.filter p).length ∧
        (l.filter p).getD m default = l.getD n default ∧
        (l.set n x).filter p = (l.filter p).set m x := by
  intro l
  induction l with
  | nil => intro n x h; simp at h
  | cons y ys ih =>
    intro n x hn hpn hpx
    cases n with
    | zero =>
      simp only [List.getD_cons_zero] at hpn
      refine ⟨0, ?_, ?_, ?_⟩
      · rw [List.filter_cons, if_pos (by simp [hpn])]; simp
      · rw [List.filter_cons, if_pos (by simp [hpn])]; simp
      · rw [List.set_cons_zero, List.filter_cons, if_pos (by simp [hpx]),
            List.filter_cons, if_pos (by simp [hpn]), List.set_cons_zero]
    | succ m =>
      simp only [List.getD_cons_succ] at hpn
      obtain ⟨m₀, hm₀, hget, hset⟩ := ih m x (by simpa using hn) hpn hpx
      by_cases hpy : p y = true
      · refine ⟨m₀ + 1, ?_, ?_, ?_⟩
        · rw [List.filter_cons, if_pos (by simp [hpy])]
          simpa using hm₀
        · rw [List.filter_cons, if_pos (by simp [hpy])]
          simpa using hget
        · rw [List.set_cons_succ, List.filter_cons, if_pos (by simp [hpy]),
              List.filter_cons, if_pos (by simp [hpy]), List.set_cons_succ, hset]
      · have hpy2 : p y = false := Bool.eq_false_iff.mpr hpy
        refine ⟨m₀, hm₀ |>.trans_eq ?_, ?_, ?_⟩
        · rw [List.filter_cons, if_neg (by simp [hpy2])]
        · rw [List.filter_cons, if_neg (by simp [hpy2])]
          simpa using hget
        · rw [List.set_cons_succ, List.filter_cons, if_neg (by simp [hpy2]),
              List.filter_cons, if_neg (by simp [hpy2]), hset]

theorem filter_set_neg (p : Task → Bool) :
    ∀ (l : List Task) (n : Nat) (x : Task), n < l.length →
      p (l.getD n default) = false → p x = false →
      (l.set n x).filter p = l.filter p := by
  intro l
  induction l with
  | nil => intro n x h; simp at h
  | cons y ys ih =>
    intro n x hn hpn hpx
    cases n with
    | zero =>
      simp only [List.getD_cons_zero] at hpn
      rw [List.set_cons_zero, List.filter_cons, if_neg (by simp [hpx]),
          List.filter_cons, if_neg (by simp [hpn])]
    | succ m =>
      simp only [List.getD_cons_succ] at hpn
      rw [List.set_cons_succ, List.filter_cons, List.filter_cons,
          ih m x (by simpa using hn) hpn hpx]

theorem bucketsBy_set_of_not_mem (key : Task → Nat) (ks : List Nat) :
    ∀ (l : List Task) (n : Nat) (x : Task), n < l.length →
      key x = key (l.getD n default) → key (l.getD n default) ∉ ks →
      bucketsBy key ks (l.set n x) = bucketsBy key ks l := by
  induction ks with
  | nil => intro l n x _ _ _; rfl
  | cons k ks ih =>
    intro l n x hn hk hc
    have hne : key (l.getD n default) ≠ k := fun e => hc (e ▸ List.mem_cons_self k ks)
    have hc2 : key (l.getD n default) ∉ ks := fun e => hc (List.mem_cons_of_mem k e)
    rw [bucketsBy, bucketsBy, ih l n x hn hk hc2,
        filter_set_neg _ l n x hn (decide_eq_false hne)
          (decide_eq_false (fun e => hne (hk.symm.trans e)))]

theorem bucketsBy_set (key : Task → Nat) (ks : List Nat) (l : List Task)
    (n : Nat) (x : Task) (hn : n < l.length)
    (hk : key x = key (l.getD n default)) (hnd : ks.Nodup)
    (hc : key (l.getD n default) ∈ ks) :
    ∃ m, m < (bucketsBy key ks l).length ∧
      (bucketsBy key ks l).getD m default = l.getD n default ∧
      bucketsBy key ks (l.set n x) = (bucketsBy key ks l).set m x := by
  induction ks with
  | nil => cases hc
  | cons k ks ih =>
    rcases List.nodup_cons.mp hnd with ⟨hkn, hnd2⟩
    by_cases hke : key (l.getD n default) = k
    · have tail_eq : bucketsBy key ks (l.set n x) = bucketsBy key ks l :=
        bucketsBy_set_of_not_mem key ks l n x hn hk (hke ▸ hkn)
      obtain ⟨m, hm, hget, hset⟩ :=
        filter_set_pos (fun t => decide (key t = k)) l n x hn
          (decide_eq_true hke) (decide_eq_true (hk.trans hke))
      refine ⟨m, ?_, ?_, ?_⟩
      · rw [bucketsBy, List.length_append]
        omega
      · rw [bucketsBy, getD_append_left _ _ _ _ hm]
        exact hget
      · rw [bucketsBy, bucketsBy, hset, tail_eq, set_append_left _ _ _ _ hm]
    · have hcks : key (l.getD n default) ∈ ks := (List.mem_cons.mp hc).resolve_left hke
      have head_eq : (l.set n x).filter (fun t => decide (key t = k)) =
          l.filter (fun t => decide (key t = k)) :=
        filter_set_neg _ l n x hn (decide_eq_false hke)
          (decide_eq_false (fun e => hke (hk.symm.trans e)))
      obtain ⟨m, hm, hget, hset⟩ := ih hnd2 hcks
      refine ⟨(l.filter (fun t => decide (key t = k))).length + m, ?_, ?_, ?_⟩
      · rw [bucketsBy, List.length_append]
        omega
      · rw [bucketsBy, getD_append_right]
        exact hget
      · rw [bucketsBy, bucketsBy, hset, head_eq, set_append_right]

end Todo

namespace TodoCli

open Todo

theorem list_index_lt_length (x : Task) :
    ∀ l : List Task, x ∈ l → list_index x l < l.length := by
  intro l
  induction l with
  | nil => intro h; cases h
  | cons y ys ih =>
    intro h
    by_cases hy : y = x
    · simp [list_index, hy]
    · rw [list_index, if_neg hy]
      have hx : x ∈ ys := by
        rcases List.mem_cons.mp h with h | h
        · exact absurd h.symm hy
        · exact h
      simpa using ih hx

theorem getD_list_index (x : Task) :
    ∀ l : List Task, x ∈ l → l.getD (list_index x l) default = x := by
  intro l
  induction l with
  | nil => intro h; cases h
  | cons y ys ih =>
    intro h
    by_cases hy : y = x
    · simp [list_index, hy]
    · rw [list_index, if_neg hy, List.getD_cons_succ]
      refine ih ?_
      rcases List.mem_cons.mp h with h | h
      · exact absurd h.symm hy
      · exact h

theorem getD_lt_list_index (x : Task) :
    ∀ (l : List Task) (j : Nat), j < list_index x l → l.getD j default ≠ x := by
  intro l
  induction l with
  | nil => intro j h; simp [list_index] at h
  | cons y ys ih =>
    intro j h
    by_cases hy : y = x
    · rw [list_index, if_pos hy] at h
      omega
    · rw [list_index, if_neg hy] at h
      cases j with
      | zero => simpa using hy
      | succ m =>
        rw [List.getD_cons_succ]
        exact ih m (by omega)

/-- The CLI sort key only takes the values 1 to 5. -/
theorem taskRank_mem (t : Task) : taskRank t ∈ ([1, 2, 3, 4, 5] : List Nat) := by
  unfold taskRank priorityRank
  split_ifs <;> simp

/-- The CLI sort is a permutation of its input. -/
theorem sort_perm (tasks : List Task) :
    List.Perm (sort_tasks_by_priority tasks) tasks := by
  rw [sort_tasks_by_priority,
      isortK_eq_bucketsBy taskRank [1, 2, 3, 4, 5] tasks (by decide)
        (fun t _ => taskRank_mem t)]
  exact bucketsBy_perm taskRank [1, 2, 3, 4, 5] tasks (by decide) (fun t _ => taskRank_mem t)

theorem sort_eq_buckets (tasks : List Task) :
    sort_tasks_by_priority tasks = bucketsBy taskRank [1, 2, 3, 4, 5] tasks :=
  isortK_eq_bucketsBy taskRank [1, 2, 3, 4, 5] tasks (by decide) (fun t _ => taskRank_mem t)

theorem sort_length (tasks : List Task) :
    (sort_tasks_by_priority tasks).length = tasks.length :=
  (sort_perm tasks).length_eq

/-- The CLI view is sorted by the code sort key. -/
theorem sort_pairwise (tasks : List Task) :
    (sort_tasks_by_priority tasks).Pairwise (fun a b => taskRank a ≤ taskRank b) := by
  rw [sort_eq_buckets]
  exact bucketsBy_pairwise taskRank [1, 2, 3, 4, 5] tasks (by decide)

/-- Tasks of any fixed priority string appear in the CLI view in their
original storage order. -/
theorem sort_filter_priority (tasks : List Task) (p : String) :
    (sort_tasks_by_priority tasks).filter (fun t => t.priority = p) =
      tasks.filter (fun t => t.priority = p) := by
  rw [sort_eq_buckets]
  refine filter_bucketsBy taskRank _ (priorityRank p) [1, 2, 3, 4, 5] tasks ?_ (by decide) ?_
  · intro t ht
    simp only [decide_eq_true_eq] at ht
    rw [taskRank, ht]
  · unfold priorityRank
    split_ifs <;> simp

/-- Updating one stored task without changing its sort key moves the update
to the corresponding display position and nothing else: the sorted view of
the updated list is the sorted view of the old list with that one slot
replaced. -/
theorem sort_set (tasks : List Task) (n : Nat) (x : Task) (hn : n < tasks.length)
    (hk : taskRank x = taskRank (tasks.getD n default)) :
    ∃ m, m < (sort_tasks_by_priority tasks).length ∧
      (sort_tasks_by_priority tasks).getD m default = tasks.getD n default ∧
      sort_tasks_by_priority (tasks.set n x) =
        (sort_tasks_by_priority tasks).set m x := by
  rw [sort_eq_buckets, sort_eq_buckets]
  exact bucketsBy_set taskRank [1, 2, 3, 4, 5] tasks n x hn hk (by decide)
    (taskRank_mem _)

end TodoCli

namespace WebTodo

open Todo

theorem webSortKey_mem (t : Task) :
    webSortKey t ∈ ([1, 2, 3, 4, 6, 7, 8, 9] : List Nat) := by
  have h : webPriorityRank t.priority ∈ ([1, 2, 3, 4] : List Nat) := by
    unfold webPriorityRank
    split_ifs <;> simp
  rw [webSortKey]
  rcases t.done with _ | _ <;> simp at h ⊢ <;> rcases h with h | h | h | h <;> simp [h]

theorem web_sort_perm (tasks : List Task) :
    List.Perm (web_sort_tasks tasks) tasks := by
  rw [web_sort_tasks,
      isortK_eq_bucketsBy webSortKey [1, 2, 3, 4, 6, 7, 8, 9] tasks (by decide)
        (fun t _ => webSortKey_mem t)]
  exact bucketsBy_perm webSortKey [1, 2, 3, 4, 6, 7, 8, 9] tasks (by decide)
    (fun t _ => webSortKey_mem t)

theorem web_sort_eq_buckets (tasks : List Task) :
    web_sort_tasks tasks = bucketsBy webSortKey [1, 2, 3, 4, 6, 7, 8, 9] tasks :=
  isortK_eq_bucketsBy webSortKey [1, 2, 3, 4, 6, 7, 8, 9] tasks (by decide)
    (fun t _ => webSortKey_mem t)

theorem web_sort_pairwise (tasks : List Task) :
    (web_sort_tasks tasks).Pairwise (fun a b => webSortKey a ≤ webSortKey b) := by
  rw [web_sort_eq_buckets]
  exact bucketsBy_pairwise webSortKey [1, 2, 3, 4, 6, 7, 8, 9] tasks (by decide)

theorem webPriorityRank_bounds (p : String) :
    1 ≤ webPriorityRank p ∧ webPriorityRank p ≤ 4 := by
  unfold webPriorityRank
  split_ifs <;> omega

/-- Unfolding the key order: smaller web key means either strictly less
done status (pending before done) or equal done status and no worse
priority rank. -/
theorem webSortKey_le_iff (a b : Task) (h : webSortKey a ≤ webSortKey b) :
    (a.done = false ∧ b.done = true) ∨
      (a.done = b.done ∧ webPriorityRank a.priority ≤ webPriorityRank b.priority) := by
  have ha := webPriorityRank_bounds a.priority
  have hb := webPriorityRank_bounds b.priority
  rw [webSortKey, webSortKey] at h
  rcases hda : a.done with _ | _ <;> rcases hdb : b.done with _ | _ <;>
    rw [hda, hdb] at h <;> simp at h
  · exact Or.inr ⟨rfl, by omega⟩
  · exact Or.inl ⟨rfl, rfl⟩
  · omega
  · exact Or.inr ⟨rfl, by omega⟩

/-- Tasks with equal done flag and equal priority string appear in the web
view in their original (stream) order. -/
theorem web_sort_filter (tasks : List Task) (dn : Bool) (p : String) :
    (web_sort_tasks tasks).filter (fun t => t.done = dn ∧ t.priority = p) =
      tasks.filter (fun t => t.done = dn ∧ t.priority = p) := by
  rw [web_sort_eq_buckets]
  refine filter_bucketsBy webSortKey _ ((if dn then 5 else 0) + webPriorityRank p)
    [1, 2, 3, 4, 6, 7, 8, 9] tasks ?_ (by decide) ?_
  · intro t ht
    simp only [decide_eq_true_eq] at ht
    rw [webSortKey, ht.1, ht.2]
  · have h : webPriorityRank p ∈ ([1, 2, 3, 4] : List Nat) := by
      unfold webPriorityRank
      split_ifs <;> simp
    rcases dn with _ | _ <;> simp at h ⊢ <;> rcases h with h | h | h | h <;> simp [h]

end WebTodo

namespace Todo

theorem dropWhile_eq_nil_iff_all (p : Char → Bool) :
    ∀ l : List Char, l.dropWhile p = [] ↔ ∀ c ∈ l, p c = true := by
  intro l
  induction l with
  | nil => simp [List.dropWhile]
  | cons y ys ih =>
    cases hp : p y with
    | true => simp [List.dropWhile, hp, ih]
    | false => simp [List.dropWhile, hp]

theorem exists_not_of_dropWhile_ne_nil (p : Char → Bool) :
    ∀ l : List Char, l.dropWhile p ≠ [] →
      ∃ c ∈ l.dropWhile p, p c = false := by
  intro l
  induction l with
  | nil => intro h; simp [List.dropWhile] at h
  | cons y ys ih =>
    intro h
    cases hp : p y with
    | true =>
      rw [List.dropWhile] at h ⊢
      rw [hp] at h ⊢
      exact ih h
    | false =>
      rw [List.dropWhile] at h ⊢
      rw [hp] at h ⊢
      exact ⟨y, List.mem_cons_self y ys, hp⟩

theorem mem_of_mem_dropWhile (p : Char → Bool) :
    ∀ (l : List Char) (c : Char), c ∈ l.dropWhile p → c ∈ l := by
  intro l
  induction l with
  | nil => intro c h; simp [List.dropWhile] at h
  | cons y ys ih =>
    intro c h
    cases hp : p y with
    | true =>
      rw [List.dropWhile, hp] at h
      exact List.mem_cons_of_mem y (ih c h)
    | false =>
      rw [List.dropWhile, hp] at h
      exact h

theorem all_of_dropWhile_all (p : Char → Bool) :
    ∀ l : List Char, (∀ c ∈ l.dropWhile p, p c = true) → ∀ c ∈ l, p c = true := by
  intro l
  induction l with
  | nil => intro _ c h; cases h
  | cons y ys ih =>
    intro h c hc
    cases hp : p y with
    | true =>
      rw [List.dropWhile, hp] at h
      rcases List.mem_cons.mp hc with h2 | h2
      · exact h2 ▸ hp
      · exact ih h c h2
    | false =>
      rw [List.dropWhile, hp] at h
      exact absurd (h y (List.mem_cons_self y ys)) (by simp [hp])

theorem stripChars_eq_nil_iff (l : List Char) :
    stripChars l = [] ↔ ∀ c ∈ l, isPySpace c = true := by
  rw [stripChars]
  rw [List.reverse_eq_nil_iff]
  constructor
  · intro h c hc
    have h2 : ∀ c ∈ (l.dropWhile isPySpace).reverse, isPySpace c = true :=
      (dropWhile_eq_nil_iff_all isPySpace _).mp h
    have h3 : ∀ c ∈ l.dropWhile isPySpace, isPySpace c = true := by
      intro c hc
      exact h2 c (List.mem_reverse.mpr hc)
    exact all_of_dropWhile_all isPySpace l h3 c hc
  · intro h
    refine (dropWhile_eq_nil_iff_all isPySpace _).mpr ?_
    intro c hc
    exact h c (mem_of_mem_dropWhile isPySpace l c (List.mem_reverse.mp hc))

theorem pyStrip_eq_empty_iff (s : String) : pyStrip s = "" ↔ blankStr s = true := by
  rw [blankStr, List.all_eq_true]
  constructor
  · intro h c hc
    have h2 : stripChars s.data = [] := by
      have := congrArg String.data h
      simpa [pyStrip] using this
    exact (stripChars_eq_nil_iff s.data).mp h2 c hc
  · intro h
    have h2 : stripChars s.data = [] :=
      (stripChars_eq_nil_iff s.data).mpr (fun c hc => by simpa using h c hc)
    rw [pyStrip, h2]

/-- A stripped string that is non-empty contains a non-whitespace
character, so it is itself never blank. -/
theorem blankStr_pyStrip_false (s : String) (h : pyStrip s ≠ "") :
    blankStr (pyStrip s) = false := by
  have hne : stripChars s.data ≠ [] := by
    intro e
    exact h (by rw [pyStrip, e])
  have hinner : (s.data.dropWhile isPySpace).reverse.dropWhile isPySpace ≠ [] := by
    intro e
    exact hne (by rw [stripChars, e]; rfl)
  obtain ⟨c, hc, hpc⟩ :=
    exists_not_of_dropWhile_ne_nil isPySpace (s.data.dropWhile isPySpace).reverse hinner
  have hcmem : c ∈ (pyStrip s).data := by
    rw [pyStrip]
    exact List.mem_reverse.mpr hc
  rw [blankStr]
  rcases Bool.eq_false_or_eq_true ((pyStrip s).data.all isPySpace) with hb | hb
  · exact absurd (List.all_eq_true.mp hb c hcmem) (by simp [hpc])
  · exact hb

theorem nodup_getD_inj {α : Type} (d : α) :
    ∀ l : List α, l.Nodup → ∀ i j : Nat, i < l.length → j < l.length →
      l.getD i d = l.getD j d → i = j := by
  intro l
  induction l with
  | nil => intro _ i j hi; simp at hi
  | cons y ys ih =>
    intro hnd i j hi hj h
    rcases List.nodup_cons.mp hnd with ⟨hy, hnd2⟩
    cases i with
    | zero =>
      cases j with
      | zero => rfl
      | succ m =>
        rw [List.getD_cons_zero, List.getD_cons_succ] at h
        exact absurd (h ▸ getD_mem d ys m (by simpa using hj)) hy
    | succ n =>
      cases j with
      | zero =>
        rw [List.getD_cons_succ, List.getD_cons_zero] at h
        exact absurd (h ▸ getD_mem d ys n (by simpa using hi)) hy
      | succ m =>
        rw [List.getD_cons_succ, List.getD_cons_succ] at h
        have := ih hnd2 n m (by simpa using hi) (by simpa using hj) h
        omega

end Todo

section Claims1

open Todo TodoCli WebTodo

/-- The save/load round trip in full: the file survives exactly when the
collection has exactly one task (one `json.dump` call); an empty collection
writes an empty file and a collection of two or more writes several
concatenated arrays, and in both cases `json.load` fails and `load_tasks`
falls back to the empty list. -/
theorem save_then_load_characterization (tasks : List Task) :
    load_tasks (save_tasks tasks) = if tasks.length = 1 then tasks else [] := by
  cases tasks with
  | nil => rfl
  | cons a l =>
    cases l with
    | nil => rfl
    | cons b l2 =>
      rw [if_neg (by simp)]
      rfl

/-- C1: the claimed save/load round trip fails, and the failure is a slip
in `save_tasks` (its loop dumps the whole list once per task instead of
once, contradicting its own docstring "Saves the current list of tasks").
At the two-task collection below the file receives two copies of the JSON
array rather than the claimed single array, `json.load` rejects it, and
`load_tasks` returns the empty list instead of the saved collection. -/
theorem C1_save_then_load_loses_tasks :
    save_tasks [⟨"buy milk", false, "LOW"⟩, ⟨"pay rent", false, "HIGH"⟩] ≠
      [[⟨"buy milk", false, "LOW"⟩, ⟨"pay rent", false, "HIGH"⟩]] ∧
    load_tasks (save_tasks [⟨"buy milk", false, "LOW"⟩, ⟨"pay rent", false, "HIGH"⟩]) = [] ∧
    ([] : List Task) ≠ [⟨"buy milk", false, "LOW"⟩, ⟨"pay rent", false, "HIGH"⟩] := by
  refine ⟨?_, rfl, ?_⟩ <;> decide

/-- C4: `mark_task_done` and `delete_task` report an invalid index exactly
when the 1-based display index lies outside `[1, length]`. -/
theorem C4_invalid_index_iff (tasks : List Task) (i : Int) :
    ((mark_task_done tasks i).1 = MarkResult.invalidIndex ↔
      ¬(1 ≤ i ∧ i ≤ (tasks.length : Int))) ∧
    ((delete_task tasks i).1 = DeleteResult.invalidIndex ↔
      ¬(1 ≤ i ∧ i ≤ (tasks.length : Int))) := by
  have hiff : (0 ≤ i - 1 ∧ i - 1 < ((sort_tasks_by_priority tasks).length : Int)) ↔
      (1 ≤ i ∧ i ≤ (tasks.length : Int)) := by
    rw [sort_length]
    omega
  by_cases h : 0 ≤ i - 1 ∧ i - 1 < ((sort_tasks_by_priority tasks).length : Int)
  · have h2 := hiff.mp h
    constructor
    · have hne : (mark_task_done tasks i).1 ≠ MarkResult.invalidIndex := by
        simp only [mark_task_done, if_pos h]
        split
        · simp
        · simp
      simp [hne, h2]
    · have hne : (delete_task tasks i).1 ≠ DeleteResult.invalidIndex := by
        simp only [delete_task, if_pos h]
        simp
      simp [hne, h2]
  · have h2 : ¬(1 ≤ i ∧ i ≤ (tasks.length : Int)) := fun hb => h (hiff.mpr hb)
    constructor
    · simp only [mark_task_done, if_neg h]
      simp [h2]
    · simp only [delete_task, if_neg h]
      simp [h2]

/-- C6: adding a task whose description is empty or whitespace-only leaves
the collection unchanged, persists nothing, and reports the validation
error (the code prints the message; no exception path exists). -/
theorem C6_add_blank_rejected (tasks : List Task) (d p : String)
    (h : blankStr d = true) :
    add_task tasks d p = (AddResult.emptyDescription, tasks, false) := by
  have h2 : pyStrip d = "" := (pyStrip_eq_empty_iff d).mpr h
  simp [add_task, h2]

theorem C6_add_blank_rejected_witness :
    blankStr "   " = true ∧
    add_task [] "   " "LOW" = (AddResult.emptyDescription, [], false) :=
  ⟨by decide, C6_add_blank_rejected [] "   " "LOW" (by decide)⟩

/-- C8: adding a task with a non-blank description succeeds, and the
following view contains the new task, pending, with the requested priority
(the stored description is the trimmed input and the stored priority the
uppercased input, as `add_task` normalizes both). -/
theorem C8_add_then_view (tasks : List Task) (d p : String)
    (h : blankStr d = false) :
    (add_task tasks d p).1 = AddResult.added ∧
    ∃ t ∈ (view_tasks (add_task tasks d p).2.1).1,
      t.description = pyStrip d ∧ t.done = false ∧ t.priority = pyUpper p := by
  have h2 : pyStrip d ≠ "" := by
    intro e
    rw [(pyStrip_eq_empty_iff d).mp e] at h
    cases h
  refine ⟨by simp [add_task, h2], ?_⟩
  refine ⟨⟨pyStrip d, false, pyUpper p⟩, ?_, rfl, rfl, rfl⟩
  have hlist : (add_task tasks d p).2.1 =
      tasks ++ [⟨pyStrip d, false, pyUpper p⟩] := by
    simp [add_task, h2]
  rw [view_tasks, hlist]
  exact ((sort_perm _).mem_iff).mpr (by simp)

theorem C8_add_then_view_witness :
    blankStr " buy milk " = false ∧
    ((add_task [] " buy milk " "low").1 = AddResult.added ∧
    ∃ t ∈ (view_tasks (add_task [] " buy milk " "low").2.1).1,
      t.description = pyStrip " buy milk " ∧ t.done = false ∧
        t.priority = pyUpper "low") :=
  ⟨by decide, C8_add_then_view [] " buy milk " "low" (by decide)⟩

/-- C9: viewing returns a priority-sorted copy (a permutation of the
stored collection, ordered by the sort key) and leaves the stored
collection exactly as it was. -/
theorem C9_view_is_sorted_copy_and_frame (tasks : List Task) :
    (view_tasks tasks).2 = tasks ∧
    List.Perm (view_tasks tasks).1 tasks ∧
    (view_tasks tasks).1.Pairwise (fun a b => taskRank a ≤ taskRank b) :=
  ⟨rfl, sort_perm tasks, sort_pairwise tasks⟩

end Claims1

namespace Todo

theorem priorityClass_eq (t : Task) : priorityClass t = min (taskRank t) 4 - 1 := by
  rw [priorityClass, taskRank, priorityRank]
  split_ifs <;> rfl

/-- The claimed four-level order is a monotone coarsening of the CLI sort
key (which separates NONE from unrecognized). -/
theorem priorityClass_mono (a b : Task) (h : taskRank a ≤ taskRank b) :
    priorityClass a ≤ priorityClass b := by
  rw [priorityClass_eq, priorityClass_eq]
  omega

end Todo

section Claims2

open Todo TodoCli WebTodo

/-- C2 counterexample: in the web display (`index` in app.py, `get_tasks`
in todo_web_service.py) a completed HIGH task is shown below a pending LOW
task, so the displayed view does not order HIGH first. -/
theorem C2_counterexample_web_done_sinks :
    web_sort_tasks [⟨"pay rent", true, "HIGH"⟩, ⟨"buy milk", false, "LOW"⟩] =
      [⟨"buy milk", false, "LOW"⟩, ⟨"pay rent", true, "HIGH"⟩] ∧
    (⟨"pay rent", true, "HIGH"⟩ : Task).priority = "HIGH" ∧
    (⟨"buy milk", false, "LOW"⟩ : Task).priority = "LOW" := by
  decide

/-- C2 amended: the CLI view is a permutation of storage ordered HIGH,
MEDIUM, LOW, then NONE/unrecognized, and tasks of equal priority keep their
insertion order; the web views are a permutation ordered first with pending
tasks before done ones and then by the same priority order within each
completion group, and tasks of equal done flag and priority keep their
insertion order. -/
theorem C2_view_priority_order (tasks : List Task) :
    (List.Perm (sort_tasks_by_priority tasks) tasks ∧
      (sort_tasks_by_priority tasks).Pairwise
        (fun a b => priorityClass a ≤ priorityClass b) ∧
      ∀ p : String,
        (sort_tasks_by_priority tasks).filter (fun t => t.priority = p) =
          tasks.filter (fun t => t.priority = p)) ∧
    (List.Perm (web_sort_tasks tasks) tasks ∧
      (web_sort_tasks tasks).Pairwise (fun a b =>
        (a.done = false ∧ b.done = true) ∨
          (a.done = b.done ∧ webPriorityRank a.priority ≤ webPriorityRank b.priority)) ∧
      ∀ (dn : Bool) (p : String),
        (web_sort_tasks tasks).filter (fun t => t.done = dn ∧ t.priority = p) =
          tasks.filter (fun t => t.done = dn ∧ t.priority = p)) := by
  refine ⟨⟨sort_perm tasks, ?_, fun p => sort_filter_priority tasks p⟩,
      ⟨web_sort_perm tasks, ?_, fun dn p => web_sort_filter tasks dn p⟩⟩
  · exact (sort_pairwise tasks).imp (fun h => priorityClass_mono _ _ h)
  · exact (web_sort_pairwise tasks).imp (fun h => webSortKey_le_iff _ _ h)

end Claims2

namespace Todo

theorem set_eq_take_cons_drop {α : Type} (x : α) :
    ∀ (l : List α) (k : Nat), k < l.length →
      l.set k x = l.take k ++ x :: l.drop (k + 1) := by
  intro l
  induction l with
  | nil => intro k h; simp at h
  | cons y ys ih =>
    intro k h
    cases k with
    | zero => simp
    | succ m => simpa using ih m (by simpa using h)

theorem set_of_length_le {α : Type} (x : α) :
    ∀ (l : List α) (n : Nat), l.length ≤ n → l.set n x = l := by
  intro l
  induction l with
  | nil => intro n _; rfl
  | cons y ys ih =>
    intro n h
    cases n with
    | zero => simp at h
    | succ m => simpa using ih m (by simpa using h)

end Todo

namespace TodoCli

open Todo

theorem valid_cond (tasks : List Task) (i : Int) (h1 : 1 ≤ i)
    (h2 : i ≤ (tasks.length : Int)) :
    0 ≤ i - 1 ∧ i - 1 < ((sort_tasks_by_priority tasks).length : Int) := by
  rw [sort_length]
  omega

theorem target_mem (tasks : List Task) (i : Int) (h1 : 1 ≤ i)
    (h2 : i ≤ (tasks.length : Int)) :
    display_target tasks i ∈ tasks := by
  have hidx : (i - 1).toNat < (sort_tasks_by_priority tasks).length := by
    rw [sort_length]
    omega
  exact ((sort_perm tasks).mem_iff).mp (getD_mem default _ _ hidx)

theorem delete_task_valid (tasks : List Task) (i : Int) (h1 : 1 ≤ i)
    (h2 : i ≤ (tasks.length : Int)) :
    delete_task tasks i =
      (DeleteResult.deleted (display_target tasks i).description,
        tasks.eraseIdx (storage_index tasks i)) := by
  have hcond := valid_cond tasks i h1 h2
  have hget := getD_list_index _ tasks (target_mem tasks i h1 h2)
  simp only [storage_index, display_target] at *
  simp only [delete_task, if_pos hcond, hget]

end TodoCli

section Claims3

open Todo TodoCli WebTodo

/-- C3 counterexample: deleting display index 1 from two value-equal tasks
removes one entry, but the subsequent view still contains the deleted task
value, because its duplicate survives. -/
theorem C3_counterexample_duplicate :
    (delete_task [⟨"a", false, "NONE"⟩, ⟨"a", false, "NONE"⟩] 1).2 =
      [⟨"a", false, "NONE"⟩] ∧
    display_target [⟨"a", false, "NONE"⟩, ⟨"a", false, "NONE"⟩] 1 =
      ⟨"a", false, "NONE"⟩ ∧
    (⟨"a", false, "NONE"⟩ : Task) ∈
      (view_tasks (delete_task [⟨"a", false, "NONE"⟩, ⟨"a", false, "NONE"⟩] 1).2).1 := by
  decide

/-- C3 amended: for a valid display index, delete removes exactly one task
(the length shrinks by one and the multiplicity of the deleted task value
drops by exactly one); when the collection held no other value-equal copy,
the subsequent view no longer contains the deleted task. -/
theorem C3_delete_shrinks_by_one (tasks : List Task) (i : Int)
    (h1 : 1 ≤ i) (h2 : i ≤ (tasks.length : Int)) :
    (delete_task tasks i).2.length + 1 = tasks.length ∧
    (delete_task tasks i).1 =
      DeleteResult.deleted (display_target tasks i).description ∧
    (delete_task tasks i).2.count (display_target tasks i) + 1 =
      tasks.count (display_target tasks i) ∧
    (tasks.count (display_target tasks i) = 1 →
      display_target tasks i ∉ (view_tasks (delete_task tasks i).2).1) := by
  have hmem := target_mem tasks i h1 h2
  have hk : storage_index tasks i < tasks.length :=
    list_index_lt_length _ tasks hmem
  have hgetk : tasks.getD (storage_index tasks i) default = display_target tasks i :=
    getD_list_index _ tasks hmem
  have hdel := delete_task_valid tasks i h1 h2
  have hsplit := take_getD_drop default tasks (storage_index tasks i) hk
  rw [hgetk] at hsplit
  have hcnt : (tasks.eraseIdx (storage_index tasks i)).count (display_target tasks i) + 1 =
      tasks.count (display_target tasks i) := by
    obtain ⟨T, hT⟩ : ∃ T, display_target tasks i = T := ⟨_, rfl⟩
    rw [hT] at hsplit ⊢
    conv_rhs => rw [← hsplit]
    rw [eraseIdx_eq_take_drop, List.count_append, List.count_append,
        List.count_cons_self]
    omega
  rw [hdel]
  refine ⟨?_, rfl, hcnt, ?_⟩
  · have hmin : min (storage_index tasks i) tasks.length = storage_index tasks i :=
      Nat.min_eq_left (Nat.le_of_lt hk)
    rw [eraseIdx_eq_take_drop, List.length_append, List.length_take, List.length_drop]
    omega
  · intro hcount1 hmemview
    have h0 : (tasks.eraseIdx (storage_index tasks i)).count (display_target tasks i) = 0 := by
      omega
    exact (List.count_eq_zero.mp h0) (((sort_perm _).mem_iff).mp hmemview)

theorem C3_delete_shrinks_by_one_witness :
    (1 : Int) ≤ 1 ∧ (1 : Int) ≤ (([⟨"a", false, "HIGH"⟩, ⟨"b", false, "LOW"⟩] : List Task).length : Int) ∧
    ((delete_task [⟨"a", false, "HIGH"⟩, ⟨"b", false, "LOW"⟩] 1).2.length + 1 =
        ([⟨"a", false, "HIGH"⟩, ⟨"b", false, "LOW"⟩] : List Task).length ∧
      (delete_task [⟨"a", false, "HIGH"⟩, ⟨"b", false, "LOW"⟩] 1).1 =
        DeleteResult.deleted (display_target [⟨"a", false, "HIGH"⟩, ⟨"b", false, "LOW"⟩] 1).description ∧
      (delete_task [⟨"a", false, "HIGH"⟩, ⟨"b", false, "LOW"⟩] 1).2.count
          (display_target [⟨"a", false, "HIGH"⟩, ⟨"b", false, "LOW"⟩] 1) + 1 =
        ([⟨"a", false, "HIGH"⟩, ⟨"b", false, "LOW"⟩] : List Task).count
          (display_target [⟨"a", false, "HIGH"⟩, ⟨"b", false, "LOW"⟩] 1) ∧
      (([⟨"a", false, "HIGH"⟩, ⟨"b", false, "LOW"⟩] : List Task).count
          (display_target [⟨"a", false, "HIGH"⟩, ⟨"b", false, "LOW"⟩] 1) = 1 →
        display_target [⟨"a", false, "HIGH"⟩, ⟨"b", false, "LOW"⟩] 1 ∉
          (view_tasks (delete_task [⟨"a", false, "HIGH"⟩, ⟨"b", false, "LOW"⟩] 1).2).1)) :=
  ⟨by decide, by decide,
    C3_delete_shrinks_by_one [⟨"a", false, "HIGH"⟩, ⟨"b", false, "LOW"⟩] 1
      (by decide) (by decide)⟩

/-- C10: for a valid display index, both mutating operations resolve to the
first storage entry value-equal to the display target (entries before it
differ from the target); delete removes exactly that entry, keeping every
other entry (later duplicates included) in order, and mark-done (on a
pending target) rewrites exactly that entry, keeping every other entry
untouched. -/
theorem C10_first_value_equal_entry (tasks : List Task) (i : Int)
    (h1 : 1 ≤ i) (h2 : i ≤ (tasks.length : Int)) :
    tasks.getD (storage_index tasks i) default = display_target tasks i ∧
    (∀ j, j < storage_index tasks i →
      tasks.getD j default ≠ display_target tasks i) ∧
    (delete_task tasks i).2 =
      tasks.take (storage_index tasks i) ++ tasks.drop (storage_index tasks i + 1) ∧
    ((display_target tasks i).done = false →
      mark_task_done tasks i =
        (MarkResult.marked,
          tasks.take (storage_index tasks i) ++
            ({ display_target tasks i with done := true } ::
              tasks.drop (storage_index tasks i + 1)))) := by
  have hcond := valid_cond tasks i h1 h2
  have hmem := target_mem tasks i h1 h2
  have hk : storage_index tasks i < tasks.length :=
    list_index_lt_length _ tasks hmem
  have hgetk : tasks.getD (storage_index tasks i) default = display_target tasks i :=
    getD_list_index _ tasks hmem
  refine ⟨hgetk, ?_, ?_, ?_⟩
  · intro j hj
    exact getD_lt_list_index _ tasks j hj
  · rw [delete_task_valid tasks i h1 h2, eraseIdx_eq_take_drop]
  · intro hdone
    have hgetk2 := hgetk
    simp only [storage_index, display_target] at hgetk2 hdone ⊢
    simp only [mark_task_done, if_pos hcond, hgetk2]
    rw [if_neg (by rw [hdone]; simp), set_eq_take_cons_drop]
    exact hk

theorem C10_first_value_equal_entry_witness :
    (1 : Int) ≤ 2 ∧ (2 : Int) ≤ (([⟨"a", false, "NONE"⟩, ⟨"a", false, "NONE"⟩] : List Task).length : Int) ∧
    (([⟨"a", false, "NONE"⟩, ⟨"a", false, "NONE"⟩] : List Task).getD
        (storage_index [⟨"a", false, "NONE"⟩, ⟨"a", false, "NONE"⟩] 2) default =
        display_target [⟨"a", false, "NONE"⟩, ⟨"a", false, "NONE"⟩] 2 ∧
      (∀ j, j < storage_index [⟨"a", false, "NONE"⟩, ⟨"a", false, "NONE"⟩] 2 →
        ([⟨"a", false, "NONE"⟩, ⟨"a", false, "NONE"⟩] : List Task).getD j default ≠
          display_target [⟨"a", false, "NONE"⟩, ⟨"a", false, "NONE"⟩] 2) ∧
      (delete_task [⟨"a", false, "NONE"⟩, ⟨"a", false, "NONE"⟩] 2).2 =
        ([⟨"a", false, "NONE"⟩, ⟨"a", false, "NONE"⟩] : List Task).take
            (storage_index [⟨"a", false, "NONE"⟩, ⟨"a", false, "NONE"⟩] 2) ++
          ([⟨"a", false, "NONE"⟩, ⟨"a", false, "NONE"⟩] : List Task).drop
            (storage_index [⟨"a", false, "NONE"⟩, ⟨"a", false, "NONE"⟩] 2 + 1) ∧
      ((display_target [⟨"a", false, "NONE"⟩, ⟨"a", false, "NONE"⟩] 2).done = false →
        mark_task_done [⟨"a", false, "NONE"⟩, ⟨"a", false, "NONE"⟩] 2 =
          (MarkResult.marked,
            ([⟨"a", false, "NONE"⟩, ⟨"a", false, "NONE"⟩] : List Task).take
                (storage_index [⟨"a", false, "NONE"⟩, ⟨"a", false, "NONE"⟩] 2) ++
              ({ display_target [⟨"a", false, "NONE"⟩, ⟨"a", false, "NONE"⟩] 2 with
                  done := true } ::
                ([⟨"a", false, "NONE"⟩, ⟨"a", false, "NONE"⟩] : List Task).drop
                  (storage_index [⟨"a", false, "NONE"⟩, ⟨"a", false, "NONE"⟩] 2 + 1))))) :=
  ⟨by decide, by decide,
    C10_first_value_equal_entry [⟨"a", false, "NONE"⟩, ⟨"a", false, "NONE"⟩] 2
      (by decide) (by decide)⟩

end Claims3

section Claims5

open Todo TodoCli WebTodo

/-- C5 counterexample: with two value-equal pending tasks, marking display
index 2 marks the first stored copy; repeating the same call resolves the
index to the still-pending second copy and marks it as well, reporting
success rather than "already done" and changing the collection again. -/
theorem C5_counterexample_duplicates :
    (mark_task_done (mark_task_done [⟨"a", false, "NONE"⟩, ⟨"a", false, "NONE"⟩] 2).2 2).1 =
      MarkResult.marked ∧
    (mark_task_done (mark_task_done [⟨"a", false, "NONE"⟩, ⟨"a", false, "NONE"⟩] 2).2 2).2 ≠
      (mark_task_done [⟨"a", false, "NONE"⟩, ⟨"a", false, "NONE"⟩] 2).2 := by
  decide

/-- C5 amended: on a collection without value-equal duplicate tasks,
marking the same valid display index twice has the same final state as
marking it once: the second call reports "already done" (non-fatal) and
leaves the collection unchanged, so the done flag transitions false to true
at most once. -/
theorem C5_mark_done_idempotent (tasks : List Task) (i : Int)
    (hnd : tasks.Nodup) (h1 : 1 ≤ i) (h2 : i ≤ (tasks.length : Int)) :
    (mark_task_done (mark_task_done tasks i).2 i).1 = MarkResult.alreadyDone ∧
    (mark_task_done (mark_task_done tasks i).2 i).2 = (mark_task_done tasks i).2 := by
  have hcond := valid_cond tasks i h1 h2
  have hmem := target_mem tasks i h1 h2
  have hk : storage_index tasks i < tasks.length :=
    list_index_lt_length _ tasks hmem
  have hgetk : tasks.getD (storage_index tasks i) default = display_target tasks i :=
    getD_list_index _ tasks hmem
  have hidx : (i - 1).toNat < (sort_tasks_by_priority tasks).length := by
    rw [sort_length]
    omega
  by_cases hdone : (tasks.getD (storage_index tasks i) default).done = true
  · have hfirst : mark_task_done tasks i = (MarkResult.alreadyDone, tasks) := by
      simp only [storage_index, display_target] at hdone
      simp only [mark_task_done, if_pos hcond, if_pos hdone]
    simp [hfirst]
  · have hdonef : (tasks.getD (storage_index tasks i) default).done = false :=
      Bool.eq_false_iff.mpr hdone
    have hfirst : mark_task_done tasks i =
        (MarkResult.marked, tasks.set (storage_index tasks i)
          { display_target tasks i with done := true }) := by
      have hgetk2 := hgetk
      simp only [storage_index, display_target] at hgetk2 hdonef ⊢
      simp only [mark_task_done, if_pos hcond]
      rw [if_neg (by rw [hdonef]; simp), hgetk2]
    obtain ⟨m, hm, hgetm, hsortset⟩ := sort_set tasks (storage_index tasks i)
      { display_target tasks i with done := true } hk (by rw [hgetk]; rfl)
    have hSnd : (sort_tasks_by_priority tasks).Nodup :=
      ((sort_perm tasks).nodup_iff).mpr hnd
    have hdt : display_target tasks i =
        (sort_tasks_by_priority tasks).getD (i - 1).toNat default := rfl
    have hgeteq : (sort_tasks_by_priority tasks).getD m default =
        (sort_tasks_by_priority tasks).getD (i - 1).toNat default := by
      rw [hgetm, hgetk, hdt]
    have hmidx : m = (i - 1).toNat :=
      nodup_getD_inj default _ hSnd m (i - 1).toNat hm hidx hgeteq
    have hlen1 : (tasks.set (storage_index tasks i)
        { display_target tasks i with done := true }).length = tasks.length := by
      simp
    have hcond1 : 0 ≤ i - 1 ∧ i - 1 <
        ((sort_tasks_by_priority (tasks.set (storage_index tasks i)
          { display_target tasks i with done := true })).length : Int) := by
      rw [sort_length, hlen1]
      omega
    have ht1 : (sort_tasks_by_priority (tasks.set (storage_index tasks i)
          { display_target tasks i with done := true })).getD (i - 1).toNat default =
        { display_target tasks i with done := true } := by
      rw [hsortset, hmidx]
      exact getD_set_self default _ _ _ hidx
    have hx1mem : { display_target tasks i with done := true } ∈
        tasks.set (storage_index tasks i) { display_target tasks i with done := true } := by
      have hset := getD_set_self default tasks (storage_index tasks i)
        { display_target tasks i with done := true } hk
      have hmm := getD_mem default
        (tasks.set (storage_index tasks i) { display_target tasks i with done := true })
        (storage_index tasks i) (by simpa using hk)
      rw [hset] at hmm
      exact hmm
    have hget1 : (tasks.set (storage_index tasks i)
          { display_target tasks i with done := true }).getD
        (list_index { display_target tasks i with done := true }
          (tasks.set (storage_index tasks i)
            { display_target tasks i with done := true }))
        default = { display_target tasks i with done := true } :=
      getD_list_index _ _ hx1mem
    have hsecond : mark_task_done (tasks.set (storage_index tasks i)
          { display_target tasks i with done := true }) i =
        (MarkResult.alreadyDone, tasks.set (storage_index tasks i)
          { display_target tasks i with done := true }) := by
      simp only [mark_task_done, if_pos hcond1, ht1]
      rw [if_pos (by rw [hget1])]
    rw [hfirst]
    dsimp only
    rw [hsecond]
    exact ⟨rfl, rfl⟩

theorem C5_mark_done_idempotent_witness :
    ([⟨"a", false, "HIGH"⟩, ⟨"b", false, "LOW"⟩] : List Task).Nodup ∧
    (1 : Int) ≤ 1 ∧
    (1 : Int) ≤ (([⟨"a", false, "HIGH"⟩, ⟨"b", false, "LOW"⟩] : List Task).length : Int) ∧
    ((mark_task_done (mark_task_done [⟨"a", false, "HIGH"⟩, ⟨"b", false, "LOW"⟩] 1).2 1).1 =
        MarkResult.alreadyDone ∧
      (mark_task_done (mark_task_done [⟨"a", false, "HIGH"⟩, ⟨"b", false, "LOW"⟩] 1).2 1).2 =
        (mark_task_done [⟨"a", false, "HIGH"⟩, ⟨"b", false, "LOW"⟩] 1).2) :=
  ⟨by decide, by decide, by decide,
    C5_mark_done_idempotent [⟨"a", false, "HIGH"⟩, ⟨"b", false, "LOW"⟩] 1
      (by decide) (by decide) (by decide)⟩

end Claims5

namespace TodoCli

open Todo

theorem all_set_done (q : Task → Bool)
    (hq : ∀ t, q t = true → q { t with done := true } = true)
    (ts : List Task) (k : Nat) (h : ts.all q = true) :
    (ts.set k { ts.getD k default with done := true }).all q = true := by
  by_cases hk : k < ts.length
  · rw [List.all_eq_true] at h ⊢
    intro t ht
    rcases mem_of_mem_set _ _ _ _ ht with he | he
    · rw [he]
      exact hq _ (h _ (getD_mem default ts k hk))
    · exact h _ he
  · rw [set_of_length_le _ ts k (by omega)]
    exact h

/-- Marking never changes any description: every per-task property that is
insensitive to the done flag is preserved. -/
theorem all_mark_task_done (q : Task → Bool)
    (hq : ∀ t, q t = true → q { t with done := true } = true)
    (ts : List Task) (i : Int) (h : ts.all q = true) :
    (mark_task_done ts i).2.all q = true := by
  by_cases hcond : 0 ≤ i - 1 ∧ i - 1 < ((sort_tasks_by_priority ts).length : Int)
  · simp only [mark_task_done, if_pos hcond]
    split
    · exact h
    · exact all_set_done q hq ts _ h
  · simp only [mark_task_done, if_neg hcond]
    exact h

/-- Deleting only removes a task: every per-task property is preserved. -/
theorem all_delete_task (q : Task → Bool) (ts : List Task) (i : Int)
    (h : ts.all q = true) : (delete_task ts i).2.all q = true := by
  by_cases hcond : 0 ≤ i - 1 ∧ i - 1 < ((sort_tasks_by_priority ts).length : Int)
  · simp only [delete_task, if_pos hcond]
    rw [List.all_eq_true] at h ⊢
    intro t ht
    rw [eraseIdx_eq_take_drop] at ht
    rcases List.mem_append.mp ht with h2 | h2
    · exact h t (List.take_subset _ _ h2)
    · exact h t (List.drop_subset _ _ h2)
  · simp only [delete_task, if_neg hcond]
    exact h

end TodoCli

section Claims7

open Todo TodoCli WebTodo

/-- C7 counterexample: the web add routes only test Python truthiness
(non-emptiness) of the description, so a whitespace-only description passes
the check and is stored verbatim, in both web variants. -/
theorem C7_counterexample_web_blank_description :
    blankStr "   " = true ∧
    web_add_task true [] "   " "LOW" = [⟨"   ", false, "LOW"⟩] ∧
    service_add_task true "u1" [] "   " "LOW" = [⟨"u1", "   ", false, "LOW"⟩] := by
  decide

/-- C7 amended: in the CLI variant every collection reachable through the
repository operations contains no task with an empty or whitespace-only
description (add stores the trimmed description and rejects blank input,
and the other operations never change a description); the web add routes
enforce only that the description is non-empty, storing any non-empty
description verbatim, so whitespace-only descriptions can be stored there. -/
theorem C7_no_blank_descriptions :
    (∀ ts : List Task, Reachable ts →
      ts.all (fun t => !blankStr t.description) = true) ∧
    (∀ (tasks : List Task) (d p : String), d ≠ "" → pyUpper p ≠ "" →
      web_add_task true tasks d p = tasks ++ [⟨d, false, pyUpper p⟩]) ∧
    (∀ (uid : String) (docs : List UserTask) (d p : String), d ≠ "" → pyUpper p ≠ "" →
      service_add_task true uid docs d p = docs ++ [⟨uid, d, false, pyUpper p⟩]) := by
  refine ⟨?_, ?_, ?_⟩
  · intro ts h
    induction h with
    | init => rfl
    | add ts d p _ ih =>
      by_cases hb : pyStrip d = ""
      · have hres : add_task ts d p = (AddResult.emptyDescription, ts, false) := by
          simp [add_task, hb]
        rw [hres]
        exact ih
      · have hres : (add_task ts d p).2.1 = ts ++ [⟨pyStrip d, false, pyUpper p⟩] := by
          simp [add_task, hb]
        rw [hres, List.all_append, ih, Bool.true_and]
        simp [blankStr_pyStrip_false d hb]
    | mark ts i _ ih =>
      exact all_mark_task_done (fun t => !blankStr t.description) (fun t ht => ht) ts i ih
    | del ts i _ ih => exact all_delete_task (fun t => !blankStr t.description) ts i ih
  · intro tasks d p hd hp
    simp [web_add_task, hd, hp]
  · intro uid docs d p hd hp
    simp [service_add_task, hd, hp]

theorem C7_no_blank_descriptions_witness :
    ((add_task [] "buy milk" "HIGH").2.1.all (fun t => !blankStr t.description) = true) ∧
    ("x" ≠ "" ∧ pyUpper "low" ≠ "" ∧
      web_add_task true [] "x" "low" = [] ++ [⟨"x", false, pyUpper "low"⟩]) ∧
    ("x" ≠ "" ∧ pyUpper "low" ≠ "" ∧
      service_add_task true "u" [] "x" "low" = [] ++ [⟨"u", "x", false, pyUpper "low"⟩]) :=
  ⟨C7_no_blank_descriptions.1 _ (Reachable.add [] "buy milk" "HIGH" Reachable.init),
   ⟨by decide, by decide,
     C7_no_blank_descriptions.2.1 [] "x" "low" (by decide) (by decide)⟩,
   ⟨by decide, by decide,
     C7_no_blank_descriptions.2.2 "u" [] "x" "low" (by decide) (by decide)⟩⟩

end Claims7


